import Mathlib

/-!
Shallow embedding of the portfolio catalog engine (src/animation.js,
class PortfolioManager).  Strings are Lean strings; JS
`String.prototype.toLowerCase` is modelled as per-character lowering,
`trim` as `String.trim`, `includes` as a substring test, JS `Set`s as
duplicate-free lists in insertion order, and JS arrays as lists.  The
blob store (localStorage) is modelled as an `Option String` per key,
and the clock (`Date.now`, `new Date().toISOString()`) as an explicit
argument to the operations that read it.
-/

namespace Portfolio

/-- JS `s.toLowerCase()` (per-character lowering). -/
def jsToLower (s : String) : String := ⟨s.data.map Char.toLower⟩

/-- JS `s.trim()`: drop whitespace from both ends. -/
def jsTrim (s : String) : String :=
  ⟨((s.data.dropWhile Char.isWhitespace).reverse.dropWhile Char.isWhitespace).reverse⟩

/-- Tag normalization used throughout the source: `tag.trim().toLowerCase()`. -/
def normTag (s : String) : String := jsToLower (jsTrim s)

/-- Does the second list start with the first one?  (Helper for `hasSub`.) -/
def leadMatch : List Char → List Char → Bool
  | [], _ => true
  | _ :: _, [] => false
  | a :: as, b :: bs => a == b && leadMatch as bs

/-- Does the needle (first argument) occur contiguously in the haystack? -/
def hasSub : List Char → List Char → Bool
  | n, [] => n.isEmpty
  | n, b :: t => leadMatch n (b :: t) || hasSub n t

/-- JS `hay.includes(needle)`. -/
def jsIncludes (hay needle : String) : Bool := hasSub needle.data hay.data

/-- Specification-level substring relation: `needle` occurs contiguously in `hay`. -/
def SubstrOf (needle hay : String) : Prop :=
  ∃ pre post, hay.data = pre ++ needle.data ++ post

/-- A Work entry: image plus metadata (src/animation.js, `addWork` callers). -/
structure Work where
  id : Nat
  image : String
  title : String
  description : String
  author : String
  tags : List String
  instagramUrl : String
  deriving DecidableEq

/-- A favorited artist as passed to `addFavorite` (name and work count). -/
structure Artist where
  name : String
  workCount : Nat
  deriving DecidableEq

/-- A stored favorite: the artist's fields plus the `addedDate` timestamp. -/
structure Favorite where
  name : String
  workCount : Nat
  addedDate : String
  deriving DecidableEq

/-- The mutable state of `PortfolioManager`. -/
structure Manager where
  works : List Work
  favorites : List Favorite
  savedWorks : List Nat
  filteredWorks : List Work
  activeFilters : List String
  searchQuery : String
  deriving DecidableEq

/-- Search predicate of `applyFilters`: empty query, or the lower-cased query
is a substring of the lower-cased title, description, or author. -/
def searchMatch (query : String) (w : Work) : Bool :=
  query == "" ||
    jsIncludes (jsToLower w.title) (jsToLower query) ||
    jsIncludes (jsToLower w.description) (jsToLower query) ||
    jsIncludes (jsToLower w.author) (jsToLower query)

/-- Tag predicate of `applyFilters`: no active filters, or some tag of the
work, normalized, is an active filter. -/
def tagMatch (active : List String) (w : Work) : Bool :=
  active.isEmpty || w.tags.any (fun t => active.contains (normTag t))

/-- The body of `applyFilters`: keep the works passing both predicates. -/
def applyFiltersList (works : List Work) (query : String) (active : List String) :
    List Work :=
  works.filter (fun w => searchMatch query w && tagMatch active w)

/-- Source `applyFilters()`: recompute `filteredWorks` from the current state. -/
def Manager.applyFilters (m : Manager) : Manager :=
  { m with filteredWorks := applyFiltersList m.works m.searchQuery m.activeFilters }

/-- Source `loadWorks()`: a missing key, or a stored empty string (falsy in JS),
yields `[]`; otherwise the stored payload is parsed. -/
def loadWorks (stored : Option String) (parse : String → List Work) : List Work :=
  match stored with
  | none => []
  | some d => if d = "" then [] else parse d

/-- Source `loadSavedWorks()`: same shape as `loadWorks` for the saved-id list. -/
def loadSavedWorks (stored : Option String) (parse : String → List Nat) : List Nat :=
  match stored with
  | none => []
  | some d => if d = "" then [] else parse d

/-- Source `loadFavorites()`: same shape as `loadWorks` for the favorites list. -/
def loadFavorites (stored : Option String) (parse : String → List Favorite) :
    List Favorite :=
  match stored with
  | none => []
  | some d => if d = "" then [] else parse d

/-- Source `toggleSaveWork(workId)`: remove the id if present, else append it. -/
def Manager.toggleSaveWork (m : Manager) (workId : Nat) : Manager :=
  if m.savedWorks.contains workId then
    { m with savedWorks := m.savedWorks.filter (fun i => i != workId) }
  else
    { m with savedWorks := m.savedWorks ++ [workId] }

/-- Source `isWorkSaved(workId)`: membership check on the saved-id list. -/
def Manager.isWorkSaved (m : Manager) (workId : Nat) : Bool :=
  m.savedWorks.contains workId

/-- Source `addFavorite(artist)`: append (with `addedDate := now`) unless an entry
with the same name already exists. -/
def Manager.addFavorite (m : Manager) (artist : Artist) (now : String) : Manager :=
  if m.favorites.any (fun fav => fav.name == artist.name) then m
  else
    { m with favorites :=
        m.favorites ++ [{ name := artist.name, workCount := artist.workCount,
                          addedDate := now }] }

/-- Source `removeFavorite(artistName)`: keep only entries with a different name. -/
def Manager.removeFavorite (m : Manager) (artistName : String) : Manager :=
  { m with favorites := m.favorites.filter (fun fav => fav.name != artistName) }

/-- Source `isFavorited(artistName)`: membership check by exact name. -/
def Manager.isFavorited (m : Manager) (artistName : String) : Bool :=
  m.favorites.any (fun fav => fav.name == artistName)

/-- Source `addWork(work)`: assign `id := Date.now()`, append, recompute filters. -/
def Manager.addWork (m : Manager) (draft : Work) (now : Nat) : Manager :=
  Manager.applyFilters { m with works := m.works ++ [{ draft with id := now }] }

/-- Source `deleteWork(id)`: drop the works with that id, recompute filters. -/
def Manager.deleteWork (m : Manager) (id : Nat) : Manager :=
  Manager.applyFilters { m with works := m.works.filter (fun w => w.id != id) }

/-- Source `setSearchQuery(query)`: store the raw query, recompute filters. -/
def Manager.setSearchQuery (m : Manager) (query : String) : Manager :=
  Manager.applyFilters { m with searchQuery := query }

/-- Source `toggleFilter(tag)`: normalize, remove from the active set if present,
else add; recompute filters. -/
def Manager.toggleFilter (m : Manager) (tag : String) : Manager :=
  let normalizedTag := normTag tag
  if m.activeFilters.contains normalizedTag then
    Manager.applyFilters
      { m with activeFilters := m.activeFilters.filter (fun t => t != normalizedTag) }
  else
    Manager.applyFilters
      { m with activeFilters := m.activeFilters ++ [normalizedTag] }

/-- Source `clearFilters()`: empty the active set, recompute filters. -/
def Manager.clearFilters (m : Manager) : Manager :=
  Manager.applyFilters { m with activeFilters := [] }

/-- JS `Set.add` on a duplicate-free insertion-ordered list. -/
def setAdd (s : List String) (x : String) : List String :=
  if x ∈ s then s else s ++ [x]

/-- Code-unit lexicographic comparison of character lists, as used by the
default JS `Array.prototype.sort` comparator on strings. -/
def lexLe : List Char → List Char → Bool
  | [], _ => true
  | _ :: _, [] => false
  | a :: as, b :: bs => decide (a < b) || (a == b && lexLe as bs)

/-- The string order used to sort the tag vocabulary. -/
def tagLe (a b : String) : Prop := lexLe a.data b.data = true

instance : DecidableRel tagLe := fun a b => instDecidableEqBool (lexLe a.data b.data) true

/-- Source `getAllTags()`: collect normalized tags of all works into a Set
(insertion order, deduplicated), then sort ascending. -/
def Manager.getAllTags (m : Manager) : List String :=
  List.insertionSort tagLe
    (m.works.foldl (fun s w => w.tags.foldl (fun s t => setAdd s (normTag t)) s) [])

/-- The names of the stored favorites, in order. -/
def favNames (favs : List Favorite) : List String := favs.map Favorite.name

/-- A sequence of `addWork` calls: each element is the draft passed in and
the `Date.now()` value read during that call. -/
def runAddWorks (m : Manager) (calls : List (Work × Nat)) : Manager :=
  calls.foldl (fun acc c => acc.addWork c.1 c.2) m

/-!
Reference-semantics model for `addWork` (JS objects live on a heap and are
passed by reference).  A heap is a list of `Work` objects; a reference is an
index into it; `this.works` holds references.
-/

/-- Dereference: read the object a reference points to. -/
def readW (objs : List Work) (r : Nat) : Option Work := objs[r]?

/-- Mutate the object a reference points to. -/
def writeW (objs : List Work) (r : Nat) (w : Work) : List Work := objs.set r w

/-- Source `work.id = Date.now()`: in-place update of the `id` field of the object
behind the reference. -/
def setWorkId (objs : List Work) (r : Nat) (now : Nat) : List Work :=
  match objs[r]? with
  | some w => objs.set r { w with id := now }
  | none => objs

/-- Source `addWork` under reference semantics: assign the id through the caller's
reference, then push that same reference onto the works list. -/
def addWorkRef (objs : List Work) (worksRefs : List Nat) (draftRef now : Nat) :
    List Work × List Nat :=
  (setWorkId objs draftRef now, worksRefs ++ [draftRef])

/-- A fresh manager (all collections empty, no query, no filters). -/
def emptyManager : Manager :=
  { works := [], favorites := [], savedWorks := [], filteredWorks := [],
    activeFilters := [], searchQuery := "" }

/-- A draft work with blank metadata, used for concrete evaluations. -/
def blankWork : Work :=
  { id := 0, image := "", title := "", description := "", author := "",
    tags := [], instagramUrl := "" }

/-- A work tagged `["Logo Design", " logo design "]` (spec example). -/
def sampleWorkA : Work := { blankWork with id := 1, tags := ["Logo Design", " logo design "] }

/-- A work tagged `["UI Design"]` (spec example). -/
def sampleWorkB : Work := { blankWork with id := 2, tags := ["UI Design"] }

/-- A manager holding the given works, with everything else fresh. -/
def sampleManager (ws : List Work) : Manager := { emptyManager with works := ws }

/-- The artist named "A" from the spec's favorites example. -/
def artistA : Artist := { name := "A", workCount := 1 }

/-! Helper lemmas. -/

theorem leadMatch_iff (n h : List Char) : leadMatch n h = true ↔ ∃ t, h = n ++ t := by
  induction n generalizing h with
  | nil => simp [leadMatch]
  | cons a as ih =>
    cases h with
    | nil => simp [leadMatch]
    | cons b bs =>
      simp only [leadMatch, Bool.and_eq_true, beq_iff_eq, ih, List.cons_append,
        List.cons.injEq]
      constructor
      · rintro ⟨rfl, t, rfl⟩
        exact ⟨t, rfl, rfl⟩
      · rintro ⟨t, rfl, rfl⟩
        exact ⟨rfl, t, rfl⟩

theorem hasSub_iff (n h : List Char) :
    hasSub n h = true ↔ ∃ pre post, h = pre ++ n ++ post := by
  induction h with
  | nil =>
    simp only [hasSub, List.isEmpty_iff]
    constructor
    · rintro rfl
      exact ⟨[], [], rfl⟩
    · rintro ⟨pre, post, hp⟩
      have hp' := hp.symm
      rw [List.append_eq_nil, List.append_eq_nil] at hp'
      exact hp'.1.2
  | cons b bs ih =>
    rw [show hasSub n (b :: bs) = (leadMatch n (b :: bs) || hasSub n bs) from rfl,
      Bool.or_eq_true, leadMatch_iff, ih]
    constructor
    · rintro (⟨t, ht⟩ | ⟨pre, post, hp⟩)
      · exact ⟨[], t, by simpa using ht⟩
      · exact ⟨b :: pre, post, by rw [hp]; rfl⟩
    · rintro ⟨pre, post, hp⟩
      cases pre with
      | nil => exact Or.inl ⟨post, by simpa using hp⟩
      | cons p pre' =>
        injection hp with h1 h2
        exact Or.inr ⟨pre', post, h2⟩

theorem jsIncludes_iff (hay needle : String) :
    jsIncludes hay needle = true ↔ SubstrOf needle hay :=
  hasSub_iff needle.data hay.data

theorem mem_setAdd (s : List String) (x y : String) :
    y ∈ setAdd s x ↔ y ∈ s ∨ y = x := by
  unfold setAdd
  split
  · rename_i hx
    exact ⟨Or.inl, fun hy => hy.elim id fun e => e ▸ hx⟩
  · simp

theorem nodup_setAdd (s : List String) (x : String) (hs : s.Nodup) :
    (setAdd s x).Nodup := by
  unfold setAdd
  split
  · exact hs
  · rename_i hx
    simp [List.nodup_append, hs, hx]

theorem mem_tagFold (ts : List String) (s : List String) (x : String) :
    x ∈ ts.foldl (fun s t => setAdd s (normTag t)) s ↔
      x ∈ s ∨ ∃ t ∈ ts, normTag t = x := by
  induction ts generalizing s with
  | nil => simp
  | cons t ts ih =>
    simp only [List.foldl_cons, ih, mem_setAdd, List.mem_cons]
    constructor
    · rintro ((hx | rfl) | ⟨t', ht', rfl⟩)
      · exact Or.inl hx
      · exact Or.inr ⟨t, Or.inl rfl, rfl⟩
      · exact Or.inr ⟨t', Or.inr ht', rfl⟩
    · rintro (hx | ⟨t', ht' | ht', rfl⟩)
      · exact Or.inl (Or.inl hx)
      · exact Or.inl (Or.inr (by rw [ht']))
      · exact Or.inr ⟨t', ht', rfl⟩

theorem nodup_tagFold (ts : List String) (s : List String) (hs : s.Nodup) :
    (ts.foldl (fun s t => setAdd s (normTag t)) s).Nodup := by
  induction ts generalizing s with
  | nil => exact hs
  | cons t ts ih => exact ih _ (nodup_setAdd _ _ hs)

theorem mem_collect (works : List Work) (s : List String) (x : String) :
    x ∈ works.foldl (fun s w => w.tags.foldl (fun s t => setAdd s (normTag t)) s) s ↔
      x ∈ s ∨ ∃ w ∈ works, ∃ t ∈ w.tags, normTag t = x := by
  induction works generalizing s with
  | nil => simp
  | cons w ws ih =>
    simp only [List.foldl_cons, ih, mem_tagFold, List.mem_cons]
    constructor
    · rintro ((hx | ⟨t, ht, rfl⟩) | ⟨w', hw', t, ht, rfl⟩)
      · exact Or.inl hx
      · exact Or.inr ⟨w, Or.inl rfl, t, ht, rfl⟩
      · exact Or.inr ⟨w', Or.inr hw', t, ht, rfl⟩
    · rintro (hx | ⟨w', hw' | hw', t, ht, rfl⟩)
      · exact Or.inl (Or.inl hx)
      · exact Or.inl (Or.inr ⟨t, by rw [hw'] at ht; exact ⟨ht, rfl⟩⟩)
      · exact Or.inr ⟨w', hw', t, ht, rfl⟩

theorem nodup_collect (works : List Work) (s : List String) (hs : s.Nodup) :
    (works.foldl (fun s w => w.tags.foldl (fun s t => setAdd s (normTag t)) s) s).Nodup := by
  induction works generalizing s with
  | nil => exact hs
  | cons w ws ih => exact ih _ (nodup_tagFold _ _ hs)

theorem lexLe_total (as bs : List Char) : lexLe as bs = true ∨ lexLe bs as = true := by
  induction as generalizing bs with
  | nil => exact Or.inl rfl
  | cons a as ih =>
    cases bs with
    | nil => exact Or.inr rfl
    | cons b bs' =>
      rcases lt_trichotomy a b with h | h | h
      · exact Or.inl (by simp [lexLe, h])
      · subst h
        rcases ih bs' with h' | h'
        · exact Or.inl (by simp [lexLe, h'])
        · exact Or.inr (by simp [lexLe, h'])
      · exact Or.inr (by simp [lexLe, h])

theorem lexLe_trans (as bs cs : List Char) (h1 : lexLe as bs = true)
    (h2 : lexLe bs cs = true) : lexLe as cs = true := by
  induction as generalizing bs cs with
  | nil => rfl
  | cons a as ih =>
    cases bs with
    | nil => simp [lexLe] at h1
    | cons b bs' =>
      cases cs with
      | nil => simp [lexLe] at h2
      | cons c cs' =>
        simp only [lexLe, Bool.or_eq_true, Bool.and_eq_true, decide_eq_true_eq,
          beq_iff_eq] at h1 h2 ⊢
        rcases h1 with h1 | ⟨rfl, h1'⟩
        · rcases h2 with h2 | ⟨rfl, h2'⟩
          · exact Or.inl (lt_trans h1 h2)
          · exact Or.inl h1
        · rcases h2 with h2 | ⟨rfl, h2'⟩
          · exact Or.inl h2
          · exact Or.inr ⟨rfl, ih bs' cs' h1' h2'⟩

theorem lexLe_iff (as bs : List Char) :
    lexLe as bs = true ↔ as = bs ∨ List.Lex (· < ·) as bs := by
  induction as generalizing bs with
  | nil =>
    cases bs with
    | nil => simp [lexLe]
    | cons b bs' => exact ⟨fun _ => Or.inr List.Lex.nil, fun _ => rfl⟩
  | cons a as ih =>
    cases bs with
    | nil =>
      rw [show lexLe (a :: as) [] = false from rfl]
      simp only [Bool.false_eq_true, false_iff]
      rintro (h | h)
      · exact absurd h (by simp)
      · exact nomatch h
    | cons b bs' =>
      simp only [lexLe, Bool.or_eq_true, Bool.and_eq_true, decide_eq_true_eq,
        beq_iff_eq, ih]
      constructor
      · rintro (h | ⟨rfl, rfl | h'⟩)
        · exact Or.inr (List.Lex.rel h)
        · exact Or.inl rfl
        · exact Or.inr (List.Lex.cons h')
      · rintro (h | h)
        · injection h with h1 h2
          exact Or.inr ⟨h1, Or.inl h2⟩
        · cases h with
          | rel h => exact Or.inl h
          | cons h => exact Or.inr ⟨rfl, Or.inr h⟩

theorem contains_mem {α : Type} [BEq α] [LawfulBEq α] (l : List α) (a : α) :
    l.contains a = true ↔ a ∈ l := by
  rw [List.contains, List.elem_eq_mem, decide_eq_true_eq]

/-! Claim theorems. -/

/-- C1: `applyFilters` keeps a Work iff it is in the Works collection, the
search predicate holds (empty query, or the lower-cased query is a substring
of the lower-cased title, description, or author), and the tag predicate holds
(no active filters, or some tag of the Work, after trim/lower-case
normalization, is an active filter); and the result preserves the original
relative order of the Works collection (it is a sublist of it). -/
theorem applyFilters_membership_and_order (works : List Work) (query : String)
    (active : List String) :
    (∀ w : Work, w ∈ applyFiltersList works query active ↔
      w ∈ works ∧
      (query = "" ∨ SubstrOf (jsToLower query) (jsToLower w.title) ∨
        SubstrOf (jsToLower query) (jsToLower w.description) ∨
        SubstrOf (jsToLower query) (jsToLower w.author)) ∧
      (active = [] ∨ ∃ t ∈ w.tags, normTag t ∈ active)) ∧
    (applyFiltersList works query active).Sublist works := by
  constructor
  · intro w
    rw [applyFiltersList, List.mem_filter, Bool.and_eq_true]
    refine and_congr_right fun _ => and_congr ?_ ?_
    · rw [searchMatch]
      simp only [Bool.or_eq_true, beq_iff_eq, jsIncludes_iff, or_assoc]
    · rw [tagMatch]
      simp only [Bool.or_eq_true, List.isEmpty_iff, List.any_eq_true, contains_mem]
  · exact List.filter_sublist works

/-- C3: toggling the saved state of a work id twice in succession returns
`isWorkSaved` for that id to its original value. -/
theorem toggleSaveWork_involution (m : Manager) (workId : Nat) :
    ((m.toggleSaveWork workId).toggleSaveWork workId).isWorkSaved workId =
      m.isWorkSaved workId := by
  by_cases h : workId ∈ m.savedWorks <;>
    simp [Manager.toggleSaveWork, Manager.isWorkSaved, contains_mem, h,
      List.mem_filter]

/-- C8: on load, a missing blob-store key yields an empty collection for each
of the three collections (Works, SavedWorkRefs, Favorites), whatever the
parser would have done to a present payload. -/
theorem load_missing_key_yields_empty (pw : String → List Work)
    (ps : String → List Nat) (pf : String → List Favorite) :
    loadWorks none pw = [] ∧ loadSavedWorks none ps = [] ∧ loadFavorites none pf = [] :=
  ⟨rfl, rfl, rfl⟩

/-- C10: `clearFilters` empties `activeFilters`, leaves `searchQuery` and the
Works collection unchanged, and the recomputed `filteredWorks` is exactly the
subsequence of Works satisfying the search predicate alone; with an empty
query it is the full Works collection. -/
theorem clearFilters_frame_and_search_only (m : Manager) :
    (m.clearFilters).activeFilters = [] ∧
    (m.clearFilters).searchQuery = m.searchQuery ∧
    (m.clearFilters).works = m.works ∧
    (m.clearFilters).filteredWorks = m.works.filter (fun w => searchMatch m.searchQuery w) ∧
    (m.searchQuery = "" → (m.clearFilters).filteredWorks = m.works) := by
  refine ⟨rfl, rfl, rfl, ?_, ?_⟩
  · show applyFiltersList m.works m.searchQuery [] = _
    unfold applyFiltersList
    simp [tagMatch]
  · intro hq
    show applyFiltersList m.works m.searchQuery [] = m.works
    unfold applyFiltersList
    rw [hq]
    simp [searchMatch, tagMatch]

/-- Witness for C10 at a concrete manager with an empty query. -/
theorem clearFilters_frame_and_search_only_witness :
    emptyManager.clearFilters.filteredWorks = emptyManager.works :=
  (clearFilters_frame_and_search_only emptyManager).2.2.2.2 rfl

/-- C2: `getAllTags` returns the deduplicated set of all tags occurring in any
Work, each normalized via trim/lower-case, sorted lexicographically ascending;
on the two spec-example Works it returns exactly
`["logo design", "ui design"]`. -/
theorem getAllTags_sorted_dedup_normalized :
    (∀ m : Manager,
      m.getAllTags.Nodup ∧
      List.Sorted (fun a b : String => a = b ∨ List.Lex (· < ·) a.data b.data)
        m.getAllTags ∧
      (∀ x, x ∈ m.getAllTags ↔ ∃ w ∈ m.works, ∃ t ∈ w.tags, normTag t = x)) ∧
    (sampleManager [sampleWorkA, sampleWorkB]).getAllTags =
      ["logo design", "ui design"] := by
  constructor
  · intro m
    refine ⟨?_, ?_, ?_⟩
    · rw [Manager.getAllTags]
      exact ((List.perm_insertionSort tagLe _).nodup_iff).mpr
        (nodup_collect m.works [] List.nodup_nil)
    · rw [Manager.getAllTags]
      have hs := @List.sorted_insertionSort String tagLe _
        ⟨fun a b => lexLe_total a.data b.data⟩
        ⟨fun a b c => lexLe_trans a.data b.data c.data⟩
        (m.works.foldl (fun s w => w.tags.foldl (fun s t => setAdd s (normTag t)) s) [])
      exact hs.imp fun h => ((lexLe_iff _ _).mp h).imp String.ext id
    · intro x
      rw [Manager.getAllTags, List.mem_insertionSort, mem_collect]
      simp
  · decide

/-- C4: the Favorites collection holds at most one entry per distinct name;
this invariant is preserved by `addFavorite` and `removeFavorite` and every
other operation leaves the favorites untouched; `addFavorite` is a no-op when
the name already exists (exact match); starting from a state with no entry of
that name, two successive `addFavorite` calls for the same artist leave
exactly one entry with that name. -/
theorem favorites_name_unique :
    (∀ (m : Manager) (a : Artist) (now : String),
      (favNames m.favorites).Nodup → (favNames (m.addFavorite a now).favorites).Nodup) ∧
    (∀ (m : Manager) (name : String),
      (favNames m.favorites).Nodup →
        (favNames (m.removeFavorite name).favorites).Nodup) ∧
    (∀ (m : Manager) (a : Artist) (now : String),
      a.name ∈ favNames m.favorites → m.addFavorite a now = m) ∧
    (∀ (m : Manager) (a : Artist) (n1 n2 : String),
      m.favorites.countP (fun f => f.name == a.name) = 0 →
        ((m.addFavorite a n1).addFavorite a n2).favorites.countP
          (fun f => f.name == a.name) = 1) ∧
    (∀ (m : Manager) (i : Nat), (m.toggleSaveWork i).favorites = m.favorites) ∧
    (∀ (m : Manager) (d : Work) (now : Nat), (m.addWork d now).favorites = m.favorites) ∧
    (∀ (m : Manager) (i : Nat), (m.deleteWork i).favorites = m.favorites) ∧
    (∀ (m : Manager) (q : String), (m.setSearchQuery q).favorites = m.favorites) ∧
    (∀ (m : Manager) (t : String), (m.toggleFilter t).favorites = m.favorites) ∧
    (∀ m : Manager, m.clearFilters.favorites = m.favorites) := by
  have hadd : ∀ (m : Manager) (a : Artist) (now : String),
      m.favorites.any (fun fav => fav.name == a.name) = false →
      m.addFavorite a now =
        { m with favorites := m.favorites ++
            [{ name := a.name, workCount := a.workCount, addedDate := now }] } := by
    intro m a now hany
    unfold Manager.addFavorite
    rw [if_neg]
    rw [hany]
    exact Bool.false_ne_true
  refine ⟨?_, ?_, ?_, ?_, ?_, fun _ _ _ => rfl, fun _ _ => rfl, fun _ _ => rfl, ?_,
    fun _ => rfl⟩
  · intro m a now h
    unfold Manager.addFavorite
    split
    · exact h
    · rename_i hany
      show (favNames (m.favorites ++ [_])).Nodup
      rw [favNames, List.map_append, List.nodup_append]
      refine ⟨h, List.nodup_singleton _, fun x hx hx' => ?_⟩
      rw [List.map_singleton, List.mem_singleton] at hx'
      subst hx'
      obtain ⟨fav, hfav, hname⟩ := List.mem_map.mp hx
      exact hany (List.any_eq_true.mpr ⟨fav, hfav, beq_iff_eq.mpr hname⟩)
  · intro m name h
    exact List.Nodup.sublist
      (List.Sublist.map Favorite.name (List.filter_sublist m.favorites)) h
  · intro m a now hmem
    unfold Manager.addFavorite
    rw [if_pos]
    obtain ⟨fav, hfav, hn⟩ := List.mem_map.mp hmem
    exact List.any_eq_true.mpr ⟨fav, hfav, beq_iff_eq.mpr hn⟩
  · intro m a n1 n2 h0
    have hforall := List.countP_eq_zero.mp h0
    have hany : m.favorites.any (fun fav => fav.name == a.name) = false := by
      rw [← Bool.not_eq_true, List.any_eq_true]
      rintro ⟨f, hf, hb⟩
      exact hforall f hf hb
    set newFav : Favorite := { name := a.name, workCount := a.workCount, addedDate := n1 }
      with hnew
    have h1 : m.addFavorite a n1 = { m with favorites := m.favorites ++ [newFav] } :=
      hadd m a n1 hany
    have hany2 : (m.favorites ++ [newFav]).any (fun fav => fav.name == a.name) = true :=
      List.any_eq_true.mpr ⟨newFav, by simp, beq_self_eq_true a.name⟩
    have h2 : ({ m with favorites := m.favorites ++ [newFav] } :
        Manager).addFavorite a n2 = { m with favorites := m.favorites ++ [newFav] } := by
      unfold Manager.addFavorite
      rw [if_pos hany2]
    rw [h1, h2]
    show (m.favorites ++ [newFav]).countP (fun f => f.name == a.name) = 1
    rw [List.countP_append, h0, List.countP_cons, List.countP_nil]
    simp [hnew]
  · intro m i
    unfold Manager.toggleSaveWork
    split <;> rfl
  · intro m t
    simp only [Manager.toggleFilter]
    split <;> rfl

/-- Witness for C4: the uniqueness invariant and the double-add count at a
concrete state. -/
theorem favorites_name_unique_witness :
    ((emptyManager.addFavorite artistA "d1").addFavorite artistA "d2").favorites.countP
      (fun f => f.name == artistA.name) = 1 :=
  favorites_name_unique.2.2.2.1 emptyManager artistA "d1" "d2" (by decide)

theorem runAddWorks_works (m : Manager) (calls : List (Work × Nat)) :
    (runAddWorks m calls).works =
      m.works ++ calls.map (fun c => { c.1 with id := c.2 }) := by
  induction calls generalizing m with
  | nil => simp [runAddWorks]
  | cons c cs ih =>
    show (runAddWorks (m.addWork c.1 c.2) cs).works = _
    rw [ih]
    show (m.works ++ [{ c.1 with id := c.2 }]) ++ _ = _
    simp

/-- C5 (amended): a sequence of `addWork` calls unconditionally grows the
Works collection by exactly one entry per call, and the ids assigned during
the sequence (the tail of the id list past the pre-existing works) are
exactly the timestamps read by the calls; when those timestamps are pairwise
distinct, the assigned ids are unique within the sequence. -/
theorem addWork_sequence_growth_unique_ids (m : Manager) (calls : List (Work × Nat)) :
    (runAddWorks m calls).works.length = m.works.length + calls.length ∧
    ((runAddWorks m calls).works.map Work.id).drop m.works.length =
      calls.map Prod.snd ∧
    ((calls.map Prod.snd).Nodup →
      (((runAddWorks m calls).works.map Work.id).drop m.works.length).Nodup) := by
  have hw := runAddWorks_works m calls
  have hmap : (runAddWorks m calls).works.map Work.id =
      m.works.map Work.id ++ calls.map Prod.snd := by
    rw [hw, List.map_append, List.map_map]
    rfl
  have hdrop : ((runAddWorks m calls).works.map Work.id).drop m.works.length =
      calls.map Prod.snd := by
    rw [hmap]
    have h2 := List.drop_left (m.works.map Work.id) (calls.map Prod.snd)
    rwa [List.length_map] at h2
  exact ⟨by rw [hw, List.length_append, List.length_map], hdrop,
    fun h => hdrop ▸ h⟩

/-- Witness for C5 (amended) at two calls with distinct timestamps. -/
theorem addWork_sequence_growth_unique_ids_witness :
    (runAddWorks emptyManager [(blankWork, 5), (blankWork, 7)]).works.length =
        emptyManager.works.length + 2 ∧
    ((runAddWorks emptyManager [(blankWork, 5), (blankWork, 7)]).works.map
        Work.id).drop emptyManager.works.length = [5, 7] ∧
    (((runAddWorks emptyManager [(blankWork, 5), (blankWork, 7)]).works.map
        Work.id).drop emptyManager.works.length).Nodup := by
  have h := addWork_sequence_growth_unique_ids emptyManager
    [(blankWork, 5), (blankWork, 7)]
  exact ⟨h.1, h.2.1, h.2.2 (by decide)⟩

/-- C5 counterexample: two `addWork` calls that read the same `Date.now()`
value (same-millisecond calls) assign the same id twice, so the ids of the
sequence are not unique as the claim states. -/
theorem addWork_sequence_duplicate_id_cex :
    (runAddWorks emptyManager [(blankWork, 5), (blankWork, 5)]).works.map Work.id =
      [5, 5] ∧
    ¬ ((runAddWorks emptyManager [(blankWork, 5), (blankWork, 5)]).works.map
        Work.id).Nodup := by
  decide

/-- C6: `deleteWork` of an id no Work has leaves the Works collection
unchanged (and is total — no error), and an immediate second `deleteWork` of
the same id is a no-op: the whole state equals the state after the first
call. -/
theorem deleteWork_absent_noop_idempotent (m : Manager) (id : Nat) :
    ((∀ w ∈ m.works, w.id ≠ id) → (m.deleteWork id).works = m.works) ∧
    (m.deleteWork id).deleteWork id = m.deleteWork id := by
  constructor
  · intro h
    show m.works.filter (fun w => w.id != id) = m.works
    rw [List.filter_eq_self]
    intro w hw
    exact bne_iff_ne.mpr (h w hw)
  · have hFF : (m.works.filter (fun w => w.id != id)).filter (fun w => w.id != id) =
        m.works.filter (fun w => w.id != id) := by
      rw [List.filter_filter]
      simp [Bool.and_self]
    simp only [Manager.deleteWork, Manager.applyFilters]
    rw [hFF]

/-- Witness for C6 at a concrete empty catalog. -/
theorem deleteWork_absent_noop_idempotent_witness :
    (emptyManager.deleteWork 3).works = emptyManager.works ∧
    (emptyManager.deleteWork 3).deleteWork 3 = emptyManager.deleteWork 3 :=
  ⟨(deleteWork_absent_noop_idempotent emptyManager 3).1
      (fun w hw => absurd hw (by simp [emptyManager])),
    (deleteWork_absent_noop_idempotent emptyManager 3).2⟩

/-- C7: `toggleFilter` normalizes the given tag, then flips exactly that
normalized element of `activeFilters` (every other element's membership is
unchanged), recomputes `filteredWorks` from the current works, query and the
new filters, leaves works and query alone, and two raw strings with the same
normalization produce identical results. -/
theorem toggleFilter_normalizes_and_toggles (m : Manager) (tag : String) :
    (∀ x, x ∈ (m.toggleFilter tag).activeFilters ↔
      (if x = normTag tag then normTag tag ∉ m.activeFilters
        else x ∈ m.activeFilters)) ∧
    (m.toggleFilter tag).filteredWorks =
      applyFiltersList m.works m.searchQuery (m.toggleFilter tag).activeFilters ∧
    (m.toggleFilter tag).works = m.works ∧
    (m.toggleFilter tag).searchQuery = m.searchQuery ∧
    (∀ t2, normTag t2 = normTag tag → m.toggleFilter t2 = m.toggleFilter tag) := by
  refine ⟨?_, ?_, ?_, ?_, ?_⟩
  · intro x
    simp only [Manager.toggleFilter]
    split
    · rename_i hc
      have hmem := (contains_mem _ _).mp hc
      show x ∈ m.activeFilters.filter (fun t => t != normTag tag) ↔ _
      rw [List.mem_filter]
      by_cases hx : x = normTag tag
      · subst hx
        simp [hmem]
      · simp [hx, bne_iff_ne]
    · rename_i hc
      have hmem : normTag tag ∉ m.activeFilters :=
        fun hm => hc ((contains_mem _ _).mpr hm)
      show x ∈ m.activeFilters ++ [normTag tag] ↔ _
      rw [List.mem_append, List.mem_singleton]
      by_cases hx : x = normTag tag
      · subst hx
        simp [hmem]
      · simp [hx]
  · simp only [Manager.toggleFilter]
    split <;> rfl
  · simp only [Manager.toggleFilter]
    split <;> rfl
  · simp only [Manager.toggleFilter]
    split <;> rfl
  · intro t2 h
    simp only [Manager.toggleFilter, h]

/-- Witness for C7: two raw strings normalizing to the same tag toggle the
same filter. -/
theorem toggleFilter_normalizes_and_toggles_witness :
    emptyManager.toggleFilter " X " = emptyManager.toggleFilter "x" :=
  (toggleFilter_normalizes_and_toggles emptyManager "x").2.2.2.2 " X " (by decide)

/-- C9: under the reference-semantics model, `addWork` pushes the caller's own
reference (the stored entry is reference-identical to the draft), mutates the
draft in place by assigning its id, and a later write through the caller's
reference is observed when reading through the reference stored in the Works
collection. -/
theorem addWork_stores_caller_reference (objs : List Work) (worksRefs : List Nat)
    (draftRef now : Nat) (hr : draftRef < objs.length) :
    (addWorkRef objs worksRefs draftRef now).2.getLast? = some draftRef ∧
    (∀ w, readW objs draftRef = some w →
      readW (addWorkRef objs worksRefs draftRef now).1 draftRef =
        some { w with id := now }) ∧
    (∀ (r : Nat) (w' : Work),
      (addWorkRef objs worksRefs draftRef now).2.getLast? = some r →
      readW (writeW (addWorkRef objs worksRefs draftRef now).1 draftRef w') r =
        some w') := by
  have hlen : (setWorkId objs draftRef now).length = objs.length := by
    unfold setWorkId
    split
    · simp [List.length_set]
    · rfl
  refine ⟨List.getLast?_concat _, ?_, ?_⟩
  · intro w hw
    have hset : setWorkId objs draftRef now = objs.set draftRef { w with id := now } := by
      unfold setWorkId
      rw [show objs[draftRef]? = some w from hw]
    show (setWorkId objs draftRef now)[draftRef]? = some { w with id := now }
    rw [hset, List.getElem?_set_self hr]
  · intro r w' hr'
    have hr2 : (worksRefs ++ [draftRef]).getLast? = some r := hr'
    rw [List.getLast?_concat] at hr2
    injection hr2 with hr''
    subst hr''
    show ((setWorkId objs draftRef now).set draftRef w')[draftRef]? = some w'
    exact List.getElem?_set_self (by rw [hlen]; exact hr)

/-- Witness for C9 at a one-object heap. -/
theorem addWork_stores_caller_reference_witness :
    (addWorkRef [blankWork] [] 0 9).2.getLast? = some 0 ∧
    readW (addWorkRef [blankWork] [] 0 9).1 0 = some { blankWork with id := 9 } ∧
    readW (writeW (addWorkRef [blankWork] [] 0 9).1 0 sampleWorkA) 0 =
      some sampleWorkA := by
  have h := addWork_stores_caller_reference [blankWork] [] 0 9 (by decide)
  exact ⟨h.1, h.2.1 blankWork rfl, h.2.2 0 sampleWorkA h.1⟩

end Portfolio
